import Mathlib

/-!
Verification of the cohort-retention engine of src/Cohort_Analysis/app.py and
the DCF computation of src/DCF-Agent/DCF.py, as shallow Lean embeddings.

Dates are modelled by an absolute calendar-month index (an integer counting
months, so that pandas period subtraction of two monthly periods is plain
integer subtraction of the indices) together with a day within the month.
Chronological order on timestamps is the lexicographic order on
(month, day).  Customer identifiers are naturals.  Exact rational arithmetic
stands in for floating point; where pandas produces NaN (sample standard
deviation of fewer than two values) the embedding returns the empty outlier
set, mirroring the all-false NaN comparison.
-/

namespace Cohort

/-- A timestamp: absolute month index (year times twelve plus month) and
day of month.  pandas to_period truncation keeps only the month index. -/
structure Date where
  month : ℤ
  day : ℕ
deriving DecidableEq, Repr

/-- One transaction row of the uploaded table: a customer identifier and a
parsed date. -/
structure Row where
  customer : ℕ
  date : Date
deriving DecidableEq, Repr

/-- Chronological order on timestamps: earlier month, or same month and
earlier-or-equal day. -/
def dle (a b : Date) : Prop :=
  a.month < b.month ∨ (a.month = b.month ∧ a.day ≤ b.day)

instance (a b : Date) : Decidable (dle a b) := by
  unfold dle; infer_instance

/-- Binary minimum of two timestamps, as pandas min over timestamps. -/
def dmin (a b : Date) : Date := if dle a b then a else b

/-- The list of transaction dates of one customer, in table order
(the filter of the groupby on Customer_ID). -/
def custDates (rows : List Row) (c : ℕ) : List Date :=
  (rows.filter fun r => r.customer = c).map (·.date)

/-- Minimum transaction date of a customer, as the groupby transform min of
the Date column.  On a customer absent from the table the value is a junk
default; every theorem quantifies over customers present in the table. -/
def minDate (rows : List Row) (c : ℕ) : Date :=
  match custDates rows c with
  | [] => ⟨0, 0⟩
  | d :: ds => ds.foldl dmin d

/-- Truncation of a timestamp to its monthly period (dt.to_period M). -/
def toPeriodM (d : Date) : ℤ := d.month

/-- Per-row purchase month: the row's own date truncated to a month. -/
def PurchaseMonth (r : Row) : ℤ := toPeriodM r.date

/-- Per-row cohort month: the minimum date over the row's customer group,
truncated to a month (the CohortMonth column of line 32 of app.py). -/
def CohortMonth (rows : List Row) (r : Row) : ℤ :=
  toPeriodM (minDate rows r.customer)

/-- Per-row cohort index: purchase month minus cohort month, in whole
calendar-month periods (the CohortIndex column of line 34 of app.py). -/
def CohortIndex (rows : List Row) (r : Row) : ℤ :=
  PurchaseMonth r - CohortMonth rows r

/-- The rows landing in one cell of the pivot of line 37 of app.py: those
with the given cohort month and cohort index. -/
def cellRows (rows : List Row) (m i : ℤ) : List Row :=
  rows.filter fun r => CohortMonth rows r = m ∧ CohortIndex rows r = i

/-- One cell of the pivot table cohort_counts: the number of distinct
customer identifiers transacting at (cohort month, cohort index), or none
when no row lands in the cell (pandas leaves such cells NaN). -/
def cohort_counts (rows : List Row) (m i : ℤ) : Option ℕ :=
  if cellRows rows m i = [] then none
  else some (((cellRows rows m i).map (·.customer)).dedup.length)

/-- The label of the first (leftmost) pivot column, i.e. the smallest cohort
index occurring in the table: pivot columns are the distinct index values in
ascending order and cohort_sizes is taken with iloc over column position
zero.  Zero on the empty table, whose pivot has no columns at all. -/
def firstColIndex (rows : List Row) : ℤ :=
  match rows.map (CohortIndex rows) with
  | [] => 0
  | x :: xs => xs.foldl min x

/-- The cohort-size vector cohort_sizes of line 38 of app.py: the pivot
column at position zero. -/
def cohort_sizes (rows : List Row) (m : ℤ) : Option ℕ :=
  cohort_counts rows m (firstColIndex rows)

/-- Row-wise division of the pivot by the size vector, as the unguarded
DataFrame.divide of line 39 of app.py: defined cells are divided with no
defensive check of the divisor (pandas produces inf or NaN on a zero
divisor rather than raising; in the rational model the quotient by zero is
the junk value zero - in either case a defined value, not an error). -/
def divideByFirst (counts : ℤ → ℤ → Option ℕ) (sizes : ℤ → Option ℕ)
    (m i : ℤ) : Option ℚ :=
  (counts m i).bind fun c => (sizes m).map fun s => (c : ℚ) / (s : ℚ)

/-- The retention-rate matrix of line 39 of app.py. -/
def retention_rate (rows : List Row) (m i : ℤ) : Option ℚ :=
  divideByFirst (cohort_counts rows) (cohort_sizes rows) m i

/-- The customers of all rows whose cohort month is m (with repetition). -/
def cohortCustomers (rows : List Row) (m : ℤ) : List ℕ :=
  (rows.filter fun r => CohortMonth rows r = m).map (·.customer)

/-- The distinct calendar periods occurring in the table, one entry per
group of the groupby on PurchaseMonth of line 42 of app.py. -/
def periodsOf (rows : List Row) : List ℤ :=
  (rows.map PurchaseMonth).dedup

/-- The extreme_churn series of line 42 of app.py: for a calendar period,
the number of distinct customers transacting in it. -/
def extreme_churn (rows : List Row) (p : ℤ) : ℕ :=
  ((rows.filter fun r => PurchaseMonth r = p).map (·.customer)).dedup.length

/-- Number of entries of the extreme_churn series. -/
def numPeriods (rows : List Row) : ℕ := (periodsOf rows).length

/-- The mean of the extreme_churn series. -/
def churnMean (rows : List Row) : ℚ :=
  ((periodsOf rows).map fun p => (extreme_churn rows p : ℚ)).sum
    / (numPeriods rows : ℚ)

/-- The variance underlying Series.std of line 43 of app.py: pandas std
uses the sample convention, dividing the sum of squared deviations by the
number of periods minus one. -/
def churnVar (rows : List Row) : ℚ :=
  ((periodsOf rows).map fun p =>
    ((extreme_churn rows p : ℚ) - churnMean rows) ^ 2).sum
    / ((numPeriods rows : ℚ) - 1)

/-- The churn_outliers series of line 43 of app.py: periods whose distinct
customer count strictly exceeds mean plus two standard deviations.  The
strict inequality against mean plus two square roots of the variance is
expressed by the equivalent rational conditions count above mean and
squared deviation above four variances, avoiding irrational square roots.
With fewer than two periods pandas sample std is NaN and every comparison
against NaN is false, so the outlier set is empty; the guard mirrors that. -/
def churn_outliers (rows : List Row) : List ℤ :=
  if numPeriods rows < 2 then []
  else (periodsOf rows).filter fun p =>
    churnMean rows < (extreme_churn rows p : ℚ) ∧
      4 * churnVar rows < ((extreme_churn rows p : ℚ) - churnMean rows) ^ 2

/-- Modelled from the spec wording population statistics over all periods:
the population variance, dividing by the number of periods. -/
def churnVarPop (rows : List Row) : ℚ :=
  ((periodsOf rows).map fun p =>
    ((extreme_churn rows p : ℚ) - churnMean rows) ^ 2).sum
    / (numPeriods rows : ℚ)

/-- Modelled from the spec wording: the outlier set computed with the
population standard deviation in place of the sample one. -/
def churn_outliers_pop (rows : List Row) : List ℤ :=
  (periodsOf rows).filter fun p =>
    churnMean rows < (extreme_churn rows p : ℚ) ∧
      4 * churnVarPop rows <
        ((extreme_churn rows p : ℚ) - churnMean rows) ^ 2

/-- A raw cell value of the uploaded spreadsheet: a date, a customer
identifier (modelled as a natural), or other text. -/
inductive RawVal where
  | dateVal (d : Date)
  | natVal (n : ℕ)
  | textVal (s : String)
deriving DecidableEq, Repr

/-- A raw uploaded row: an association list from column names to values. -/
abbrev RawRow := List (String × RawVal)

/-- The uploaded table as read by read_excel: a fixed list of column names
and the data rows. -/
structure RawTable where
  cols : List String
  cells : List RawRow
deriving Repr

/-- Value of a named column in one raw row. -/
def lookupCol (row : RawRow) (c : String) : Option RawVal :=
  (row.find? fun kv => kv.1 = c).map (·.2)

/-- Column access on the DataFrame: raises KeyError when the column name is
absent from the frame, modelled as an error result. -/
def getColumn (t : RawTable) (c : String) :
    Except String (List (Option RawVal)) :=
  if c ∈ t.cols then .ok (t.cells.map fun r => lookupCol r c)
  else .error ("KeyError: " ++ c)

/-- pd.to_datetime over a column: every value must parse as a date,
otherwise the whole conversion fails (no row-level recovery). -/
def to_datetime : List (Option RawVal) → Except String (List Date)
  | [] => .ok []
  | some (.dateVal d) :: rest => (to_datetime rest).map (d :: ·)
  | _ :: _ => .error "unparseable date"

/-- Extraction of the customer identifiers of a column. -/
def toCustomers : List (Option RawVal) → Except String (List ℕ)
  | [] => .ok []
  | some (.natVal n) :: rest => (toCustomers rest).map (n :: ·)
  | _ :: _ => .error "invalid customer identifier"

/-- The three outputs of the retention engine: the enriched transaction
table, the retention-rate matrix and the churn outlier set. -/
structure EngineOut where
  table : List Row
  retention : ℤ → ℤ → Option ℚ
  outliers : List ℤ

/-- The engine pipeline of lines 30 to 43 of app.py in source order: access
and parse the Date column, then access the Customer_ID column, then build
the derived columns, pivot and outlier set.  Any failure aborts the whole
run with an error and no output is produced. -/
def runEngine (t : RawTable) : Except String EngineOut :=
  (getColumn t "Date").bind fun dateCol =>
    (to_datetime dateCol).bind fun dates =>
      (getColumn t "Customer_ID").bind fun custCol =>
        (toCustomers custCol).bind fun custs =>
          let rows := List.zipWith Row.mk custs dates
          .ok ⟨rows, retention_rate rows, churn_outliers rows⟩

/-- The end-to-end example table of the spec: customers 0 and 1, first
transactions in month 1, repeat transactions in months 2 and 3. -/
def exampleRows : List Row :=
  [⟨0, ⟨1, 5⟩⟩, ⟨0, ⟨2, 10⟩⟩, ⟨1, ⟨1, 20⟩⟩, ⟨1, ⟨3, 1⟩⟩]

/-- A table whose six periods have distinct-customer counts 1, 1, 1, 1, 2
and 4: the count-4 period exceeds mean plus two population standard
deviations but not mean plus two sample standard deviations. -/
def churnExampleRows : List Row :=
  [⟨0, ⟨1, 1⟩⟩, ⟨1, ⟨2, 1⟩⟩, ⟨2, ⟨3, 1⟩⟩, ⟨3, ⟨4, 1⟩⟩,
   ⟨4, ⟨5, 1⟩⟩, ⟨5, ⟨5, 2⟩⟩,
   ⟨6, ⟨6, 1⟩⟩, ⟨7, ⟨6, 2⟩⟩, ⟨8, ⟨6, 3⟩⟩, ⟨9, ⟨6, 4⟩⟩]

/-- A table all of whose transactions fall in calendar month 7. -/
def singlePeriodRows : List Row :=
  [⟨0, ⟨7, 3⟩⟩, ⟨1, ⟨7, 9⟩⟩]

/-- An uploaded table lacking the Date column. -/
def noDateTable : RawTable :=
  ⟨["Customer_ID"], [[("Customer_ID", RawVal.natVal 0)]]⟩

end Cohort

namespace DCF

/-- The list years of line 33 of DCF.py: 1 up to the forecast period. -/
def yearsList (forecast_years : ℕ) : List ℕ :=
  (List.range forecast_years).map (· + 1)

/-- The forecasted free cash flows of line 34 of DCF.py. -/
def forecasted_fcf (initial_fcf growth_rate : ℚ) (forecast_years : ℕ) :
    List ℚ :=
  (yearsList forecast_years).map fun year =>
    initial_fcf * (1 + growth_rate) ^ year

/-- The discounted free cash flows of line 35 of DCF.py. -/
def discounted_fcf (initial_fcf growth_rate discount_rate : ℚ)
    (forecast_years : ℕ) : List ℚ :=
  List.zipWith (fun year fcf => fcf / (1 + discount_rate) ^ year)
    (yearsList forecast_years)
    (forecasted_fcf initial_fcf growth_rate forecast_years)

/-- The terminal value of line 38 of DCF.py.  Python raises IndexError on
an empty forecast list and ZeroDivisionError when the denominator
discount rate minus terminal growth rate is zero; both failure modes are
returned as none. -/
def terminal_value (initial_fcf growth_rate discount_rate
    terminal_growth_rate : ℚ) (forecast_years : ℕ) : Option ℚ :=
  (forecasted_fcf initial_fcf growth_rate forecast_years).getLast?.bind
    fun last_fcf =>
      if discount_rate - terminal_growth_rate = 0 then none
      else some (last_fcf * (1 + terminal_growth_rate)
        / (discount_rate - terminal_growth_rate))

/-- The discounted terminal value of line 39 of DCF.py. -/
def discounted_terminal_value (initial_fcf growth_rate discount_rate
    terminal_growth_rate : ℚ) (forecast_years : ℕ) : Option ℚ :=
  (terminal_value initial_fcf growth_rate discount_rate
      terminal_growth_rate forecast_years).map
    fun tv => tv / (1 + discount_rate) ^ forecast_years

/-- The total DCF valuation of line 42 of DCF.py. -/
def dcf_valuation (initial_fcf growth_rate discount_rate
    terminal_growth_rate : ℚ) (forecast_years : ℕ) : Option ℚ :=
  (discounted_terminal_value initial_fcf growth_rate discount_rate
      terminal_growth_rate forecast_years).map
    fun dtv =>
      (discounted_fcf initial_fcf growth_rate discount_rate
        forecast_years).sum + dtv

/-- The whole model as driven by the UI: percentage inputs are converted
to decimals as in lines 28 to 30 of DCF.py. -/
def dcf_model (initial_fcf growth_rate_pct discount_rate_pct
    terminal_growth_rate_pct : ℚ) (forecast_years : ℕ) : Option ℚ :=
  dcf_valuation initial_fcf (growth_rate_pct / 100)
    (discount_rate_pct / 100) (terminal_growth_rate_pct / 100)
    forecast_years

end DCF

namespace Cohort

theorem dle_refl (a : Date) : dle a a := Or.inr ⟨rfl, le_refl _⟩

theorem dle_trans {a b c : Date} (h₁ : dle a b) (h₂ : dle b c) : dle a c := by
  unfold dle at *; omega

theorem dle_of_not_dle {a b : Date} (h : ¬ dle a b) : dle b a := by
  unfold dle at *; omega

theorem dmin_eq_or (a b : Date) : dmin a b = a ∨ dmin a b = b := by
  unfold dmin; split <;> simp

theorem dmin_dle_left (a b : Date) : dle (dmin a b) a := by
  unfold dmin; split
  · exact dle_refl a
  · exact dle_of_not_dle (by assumption)

theorem dmin_dle_right (a b : Date) : dle (dmin a b) b := by
  unfold dmin; split
  · assumption
  · exact dle_refl b

/-- The left fold of dmin over a list returns an element of the list. -/
theorem foldl_dmin_mem (d : Date) (ds : List Date) :
    ds.foldl dmin d ∈ d :: ds := by
  induction ds generalizing d with
  | nil => simp
  | cons a t ih =>
    simp only [List.foldl_cons]
    rcases List.mem_cons.mp (ih (dmin d a)) with h | h
    · rw [h]
      rcases dmin_eq_or d a with e | e <;> rw [e] <;> simp
    · simp [h]

/-- The left fold of dmin over a list is a lower bound of the list. -/
theorem foldl_dmin_le (d : Date) (ds : List Date) :
    ∀ x ∈ d :: ds, dle (ds.foldl dmin d) x := by
  induction ds generalizing d with
  | nil => intro x hx; simp at hx; subst hx; exact dle_refl x
  | cons a t ih =>
    intro x hx
    simp only [List.foldl_cons]
    have hmin : dle (t.foldl dmin (dmin d a)) (dmin d a) :=
      ih (dmin d a) (dmin d a) (List.mem_cons_self _ _)
    rcases List.mem_cons.mp hx with hx | hx
    · subst hx
      exact dle_trans hmin (dmin_dle_left _ _)
    · rcases List.mem_cons.mp hx with hx | hx
      · subst hx
        exact dle_trans hmin (dmin_dle_right _ _)
      · exact ih (dmin d a) x (List.mem_cons_of_mem _ hx)

theorem mem_custDates {rows : List Row} {c : ℕ} {x : Date} :
    x ∈ custDates rows c ↔ ∃ r ∈ rows, r.customer = c ∧ r.date = x := by
  unfold custDates
  simp only [List.mem_map, List.mem_filter, decide_eq_true_eq]
  constructor
  · rintro ⟨r, ⟨hr, hc⟩, hd⟩; exact ⟨r, hr, hc, hd⟩
  · rintro ⟨r, hr, hc, hd⟩; exact ⟨r, ⟨hr, hc⟩, hd⟩

/-- The minimum date of a customer present in the table is attained by one
of that customer's rows and bounds all of that customer's dates below. -/
theorem minDate_spec (rows : List Row) (c : ℕ)
    (h : ∃ r ∈ rows, r.customer = c) :
    (∃ r ∈ rows, r.customer = c ∧ r.date = minDate rows c) ∧
    (∀ r ∈ rows, r.customer = c → dle (minDate rows c) r.date) := by
  obtain ⟨r₀, hr₀, hc₀⟩ := h
  have hmem : r₀.date ∈ custDates rows c :=
    mem_custDates.mpr ⟨r₀, hr₀, hc₀, rfl⟩
  rcases hcd : custDates rows c with _ | ⟨d, ds⟩
  · rw [hcd] at hmem; simp at hmem
  · have hmin : minDate rows c = ds.foldl dmin d := by
      unfold minDate; rw [hcd]
    constructor
    · have : minDate rows c ∈ custDates rows c := by
        rw [hmin, hcd]; exact foldl_dmin_mem d ds
      exact mem_custDates.mp this
    · intro r hr hc
      have : r.date ∈ custDates rows c := mem_custDates.mpr ⟨r, hr, hc, rfl⟩
      rw [hcd] at this
      rw [hmin]
      exact foldl_dmin_le d ds r.date this

/-- Truncation to months is monotone with respect to chronological order. -/
theorem toPeriodM_mono {a b : Date} (h : dle a b) :
    toPeriodM a ≤ toPeriodM b := by
  unfold dle at h; unfold toPeriodM; omega

theorem cohortIndex_nonneg (rows : List Row) (r : Row) (h : r ∈ rows) :
    0 ≤ CohortIndex rows r := by
  have hs := minDate_spec rows r.customer ⟨r, h, rfl⟩
  have := toPeriodM_mono (hs.2 r h rfl)
  unfold CohortIndex CohortMonth PurchaseMonth at *
  omega

/-- For any customer present in the table there is a row at the customer's
minimum date: it has cohort index zero and sits in its own cohort month. -/
theorem exists_cohort_zero_row (rows : List Row) (c : ℕ)
    (h : ∃ r ∈ rows, r.customer = c) :
    ∃ r ∈ rows, r.customer = c ∧ CohortIndex rows r = 0 ∧
      CohortMonth rows r = toPeriodM (minDate rows c) := by
  obtain ⟨⟨r, hr, hc, hd⟩, _⟩ := minDate_spec rows c h
  refine ⟨r, hr, hc, ?_, ?_⟩
  · unfold CohortIndex CohortMonth PurchaseMonth
    rw [hc, hd]
    omega
  · unfold CohortMonth; rw [hc]

theorem mem_cellRows {rows : List Row} {m i : ℤ} {r : Row} :
    r ∈ cellRows rows m i ↔
      r ∈ rows ∧ CohortMonth rows r = m ∧ CohortIndex rows r = i := by
  unfold cellRows
  simp [List.mem_filter]

theorem cohort_counts_eq_none_iff (rows : List Row) (m i : ℤ) :
    cohort_counts rows m i = none ↔ cellRows rows m i = [] := by
  unfold cohort_counts
  split <;> simp_all

theorem cohort_counts_eq_some (rows : List Row) (m i : ℤ) (n : ℕ)
    (h : cohort_counts rows m i = some n) :
    n = ((cellRows rows m i).map (·.customer)).toFinset.card ∧ 0 < n := by
  unfold cohort_counts at h
  split at h
  · exact absurd h (by simp)
  · rename_i hne
    have hn : n = ((cellRows rows m i).map (·.customer)).dedup.length :=
      (Option.some_injective _ h).symm
    constructor
    · rw [hn, List.card_toFinset]
    · rw [hn]
      have : (cellRows rows m i).map (·.customer) ≠ [] := by
        simpa using hne
      have : ((cellRows rows m i).map (·.customer)).dedup ≠ [] := by
        simpa [List.dedup_eq_nil] using this
      exact List.length_pos.mpr this

/-- Cohort months are a function of the customer alone. -/
theorem cohortMonth_eq_of_customer_eq (rows : List Row) {r₁ r₂ : Row}
    (h : r₁.customer = r₂.customer) :
    CohortMonth rows r₁ = CohortMonth rows r₂ := by
  unfold CohortMonth; rw [h]

/-- The customers of the index-zero cell of a cohort are exactly the
customers of that cohort. -/
theorem cell_zero_customers (rows : List Row) (m : ℤ) :
    ((cellRows rows m 0).map (·.customer)).toFinset =
      (cohortCustomers rows m).toFinset := by
  ext c
  simp only [List.mem_toFinset, List.mem_map, cohortCustomers,
    List.mem_filter, decide_eq_true_eq]
  constructor
  · rintro ⟨r, hr, hc⟩
    have := mem_cellRows.mp hr
    exact ⟨r, ⟨this.1, by simp [this.2.1]⟩, hc⟩
  · rintro ⟨r, ⟨hr, hm⟩, hc⟩
    obtain ⟨r', hr', hc', hi', hm'⟩ :=
      exists_cohort_zero_row rows r.customer ⟨r, hr, rfl⟩
    have hmm : CohortMonth rows r' = m := by
      rw [hm']; exact hm
    exact ⟨r', mem_cellRows.mpr ⟨hr', hmm, hi'⟩, hc'.trans hc⟩

/-- The left fold of min over a list of integers returns an element. -/
theorem foldl_min_mem (x : ℤ) (xs : List ℤ) : xs.foldl min x ∈ x :: xs := by
  induction xs generalizing x with
  | nil => simp
  | cons a t ih =>
    simp only [List.foldl_cons]
    rcases List.mem_cons.mp (ih (min x a)) with h | h
    · rw [h]
      rcases min_choice x a with e | e <;> rw [e] <;> simp
    · simp [h]

/-- The left fold of min over a list of integers is a lower bound. -/
theorem foldl_min_le (x : ℤ) (xs : List ℤ) :
    ∀ y ∈ x :: xs, xs.foldl min x ≤ y := by
  induction xs generalizing x with
  | nil => intro y hy; simp at hy; simp [hy]
  | cons a t ih =>
    intro y hy
    simp only [List.foldl_cons]
    have hmin : t.foldl min (min x a) ≤ min x a :=
      ih (min x a) (min x a) (List.mem_cons_self _ _)
    rcases List.mem_cons.mp hy with hy | hy
    · subst hy; exact le_trans hmin (min_le_left _ _)
    · rcases List.mem_cons.mp hy with hy | hy
      · subst hy; exact le_trans hmin (min_le_right _ _)
      · exact ih (min x a) y (List.mem_cons_of_mem _ hy)

/-- Each index in the table is nonnegative and zero is attained, hence the
leftmost pivot column is the column labelled zero. -/
theorem firstColIndex_eq_zero (rows : List Row) (h : rows ≠ []) :
    firstColIndex rows = 0 := by
  obtain ⟨r₀, hr₀⟩ := List.exists_mem_of_ne_nil rows h
  obtain ⟨r', hr', -, hi', -⟩ :=
    exists_cohort_zero_row rows r₀.customer ⟨r₀, hr₀, rfl⟩
  have hmem : ∀ x ∈ rows.map (CohortIndex rows), 0 ≤ x := by
    intro x hx
    obtain ⟨r, hr, hxeq⟩ := List.mem_map.mp hx
    rw [← hxeq]; exact cohortIndex_nonneg rows r hr
  have hzero : (0 : ℤ) ∈ rows.map (CohortIndex rows) :=
    List.mem_map.mpr ⟨r', hr', hi'⟩
  unfold firstColIndex
  cases hmap : rows.map (CohortIndex rows) with
  | nil => rw [hmap] at hzero
  | cons x xs =>
    rw [hmap] at hmem hzero
    have h1 : xs.foldl min x ≤ 0 := foldl_min_le x xs 0 hzero
    have h2 : 0 ≤ xs.foldl min x := hmem _ (foldl_min_mem x xs)
    show xs.foldl min x = 0
    omega

/-- Claim C1: every customer of the table maps to exactly one cohort month
(all rows of one customer agree), and that month is the calendar month of
a minimum transaction date of that customer. -/
theorem assign_cohorts_min_month (rows : List Row) (r₁ r₂ : Row)
    (h₁ : r₁ ∈ rows) (h₂ : r₂ ∈ rows) (hc : r₁.customer = r₂.customer) :
    CohortMonth rows r₁ = CohortMonth rows r₂ ∧
    (∃ rm ∈ rows, rm.customer = r₁.customer ∧
      CohortMonth rows r₁ = toPeriodM rm.date ∧
      ∀ r ∈ rows, r.customer = r₁.customer → dle rm.date r.date) := by
  constructor
  · exact cohortMonth_eq_of_customer_eq rows hc
  · obtain ⟨⟨rm, hrm, hcm, hdm⟩, hlb⟩ :=
      minDate_spec rows r₁.customer ⟨r₁, h₁, rfl⟩
    refine ⟨rm, hrm, hcm, ?_, ?_⟩
    · unfold CohortMonth; rw [hdm]
    · intro r hr hcr
      rw [hdm]; exact hlb r hr hcr

theorem assign_cohorts_min_month_witness :
    CohortMonth exampleRows ⟨0, ⟨1, 5⟩⟩ = CohortMonth exampleRows ⟨0, ⟨2, 10⟩⟩ ∧
    (∃ rm ∈ exampleRows, rm.customer = 0 ∧
      CohortMonth exampleRows ⟨0, ⟨1, 5⟩⟩ = toPeriodM rm.date ∧
      ∀ r ∈ exampleRows, r.customer = 0 → dle rm.date r.date) :=
  assign_cohorts_min_month exampleRows ⟨0, ⟨1, 5⟩⟩ ⟨0, ⟨2, 10⟩⟩
    (by decide) (by decide) rfl

/-- Claim C2: a defined cell of the retention pivot counts distinct
customer identifiers (a set cardinality, not a raw row count), is never
zero, and a cell is undefined exactly when no transaction lands in it. -/
theorem build_retention_matrix_distinct_counts (rows : List Row)
    (m i : ℤ) :
    (cohort_counts rows m i = none ↔ cellRows rows m i = []) ∧
    (∀ n : ℕ, cohort_counts rows m i = some n →
      n = ((cellRows rows m i).map (·.customer)).toFinset.card ∧ 0 < n) := by
  refine ⟨cohort_counts_eq_none_iff rows m i, ?_⟩
  intro n hn
  exact cohort_counts_eq_some rows m i n hn

theorem build_retention_matrix_distinct_counts_witness :
    (2 : ℕ) = ((cellRows exampleRows 1 0).map (·.customer)).toFinset.card ∧
      0 < (2 : ℕ) :=
  (build_retention_matrix_distinct_counts exampleRows 1 0).2 2 (by decide)

/-- Claim C4: the cohort index of a row is the integer number of calendar
months between the row's own month and the month of the customer's minimum
transaction date (pure period arithmetic), and it is never negative. -/
theorem compute_cohort_index_nonneg (rows : List Row) (r : Row)
    (h : r ∈ rows) :
    CohortIndex rows r
        = PurchaseMonth r - toPeriodM (minDate rows r.customer) ∧
    0 ≤ CohortIndex rows r :=
  ⟨rfl, cohortIndex_nonneg rows r h⟩

theorem compute_cohort_index_nonneg_witness :
    CohortIndex exampleRows ⟨0, ⟨2, 10⟩⟩
        = PurchaseMonth ⟨0, ⟨2, 10⟩⟩ - toPeriodM (minDate exampleRows 0) ∧
    0 ≤ CohortIndex exampleRows ⟨0, ⟨2, 10⟩⟩ :=
  compute_cohort_index_nonneg exampleRows ⟨0, ⟨2, 10⟩⟩ (by decide)

/-- Period arithmetic, not day counts: the last day of one month to the
first day of the next month is one whole elapsed period. -/
theorem cohortIndex_period_not_day :
    CohortIndex [⟨0, ⟨0, 31⟩⟩, ⟨0, ⟨1, 1⟩⟩] ⟨0, ⟨1, 1⟩⟩ = 1 := by decide

/-- The index-zero cell of every cohort occurring in the table is defined
and equals the cohort's number of distinct customers, which is positive. -/
theorem cohort_counts_zero_cell (rows : List Row) (m : ℤ)
    (h : ∃ r ∈ rows, CohortMonth rows r = m) :
    cohort_counts rows m 0
        = some ((cohortCustomers rows m).toFinset.card) ∧
    0 < (cohortCustomers rows m).toFinset.card := by
  obtain ⟨r₀, hr₀, hm₀⟩ := h
  obtain ⟨r', hr', hc', hi', hm'⟩ :=
    exists_cohort_zero_row rows r₀.customer ⟨r₀, hr₀, rfl⟩
  have hmm : CohortMonth rows r' = m := by
    rw [hm']; exact hm₀
  have hcell : r' ∈ cellRows rows m 0 :=
    mem_cellRows.mpr ⟨hr', hmm, hi'⟩
  have hne : cellRows rows m 0 ≠ [] := List.ne_nil_of_mem hcell
  have hcust : r₀.customer ∈ cohortCustomers rows m := by
    unfold cohortCustomers
    exact List.mem_map.mpr ⟨r₀, List.mem_filter.mpr ⟨hr₀, by simp [hm₀]⟩, rfl⟩
  constructor
  · unfold cohort_counts
    rw [if_neg hne]
    congr 1
    rw [← List.card_toFinset, cell_zero_customers]
  · exact Finset.card_pos.mpr ⟨r₀.customer, List.mem_toFinset.mpr hcust⟩

/-- Claim C3: every cohort row of the pivot has a defined index-zero cell
holding the cohort's total number of distinct customers, and the
retention-rate matrix is exactly one there. -/
theorem retention_index_zero_total (rows : List Row) (m : ℤ)
    (h : ∃ r ∈ rows, CohortMonth rows r = m) :
    cohort_counts rows m 0
        = some ((cohortCustomers rows m).toFinset.card) ∧
    retention_rate rows m 0 = some 1 := by
  obtain ⟨hcount, hpos⟩ := cohort_counts_zero_cell rows m h
  refine ⟨hcount, ?_⟩
  have hne : rows ≠ [] := by
    obtain ⟨r₀, hr₀, -⟩ := h
    exact List.ne_nil_of_mem hr₀
  have hsizes : cohort_sizes rows m
      = some ((cohortCustomers rows m).toFinset.card) := by
    unfold cohort_sizes
    rw [firstColIndex_eq_zero rows hne]
    exact hcount
  unfold retention_rate divideByFirst
  rw [hcount, hsizes]
  have hnz : ((cohortCustomers rows m).toFinset.card : ℚ) ≠ 0 :=
    Nat.cast_ne_zero.mpr (Nat.pos_iff_ne_zero.mp hpos)
  simp [Option.bind, div_self hnz]

theorem retention_index_zero_total_witness :
    cohort_counts exampleRows 1 0
        = some ((cohortCustomers exampleRows 1).toFinset.card) ∧
    retention_rate exampleRows 1 0 = some 1 :=
  retention_index_zero_total exampleRows 1 (by decide)

/-- Claim C9 (positive part): for cohorts derived from the table itself the
divisor of normalize_to_rates, the index-zero distinct count, is always a
defined positive number, so no division by zero can occur. -/
theorem normalize_to_rates_no_div_by_zero (rows : List Row) (m : ℤ)
    (h : ∃ r ∈ rows, CohortMonth rows r = m) :
    ∃ s : ℕ, cohort_sizes rows m = some s ∧ 0 < s := by
  obtain ⟨hcount, hpos⟩ := cohort_counts_zero_cell rows m h
  have hne : rows ≠ [] := by
    obtain ⟨r₀, hr₀, -⟩ := h
    exact List.ne_nil_of_mem hr₀
  refine ⟨(cohortCustomers rows m).toFinset.card, ?_, hpos⟩
  unfold cohort_sizes
  rw [firstColIndex_eq_zero rows hne]
  exact hcount

theorem normalize_to_rates_no_div_by_zero_witness :
    ∃ s : ℕ, cohort_sizes exampleRows 1 = some s ∧ 0 < s :=
  normalize_to_rates_no_div_by_zero exampleRows 1 (by decide)

/-- Claim C9 (refuted part): the division of line 39 of app.py is not
guarded by any defensive assertion: dividing a crafted matrix whose
index-zero entry is zero still yields a defined value rather than failing,
so no assertion interrupts the computation. -/
theorem normalize_to_rates_unguarded_divide :
    (divideByFirst (fun _ _ => some 3) (fun _ => some 0) 0 0).isSome
      = true := rfl

/-- With at least two periods the sample variance of the counts is a
quotient of a sum of squares by a positive number. -/
theorem churnVar_nonneg (rows : List Row) (hn : 2 ≤ numPeriods rows) :
    0 ≤ churnVar rows := by
  unfold churnVar
  apply div_nonneg
  · apply List.sum_nonneg
    intro x hx
    obtain ⟨p, -, rfl⟩ := List.mem_map.mp hx
    positivity
  · have h2 : (2 : ℚ) ≤ (numPeriods rows : ℚ) := by exact_mod_cast hn
    linarith

/-- Strict comparison against twice a square root, restated with rational
operations only: both sides are compared after squaring, once positivity
of the difference is known. -/
theorem two_sqrt_lt_iff {v x : ℝ} (hv : 0 ≤ v) :
    2 * Real.sqrt v < x ↔ 0 < x ∧ 4 * v < x ^ 2 := by
  have h4 : Real.sqrt (4 * v) = 2 * Real.sqrt v := by
    rw [Real.sqrt_mul (by norm_num) v,
      show (4 : ℝ) = 2 ^ 2 by norm_num,
      Real.sqrt_sq (by norm_num : (0:ℝ) ≤ 2)]
  constructor
  · intro h
    have hx : 0 < x := lt_of_le_of_lt (by positivity) h
    exact ⟨hx, (Real.sqrt_lt' hx).mp (h4 ▸ h)⟩
  · rintro ⟨hx, h⟩
    have := (Real.sqrt_lt' hx).mpr h
    rwa [h4] at this

/-- The threshold test of line 43 of app.py, written with a real square
root, coincides with the rational filter condition of churn_outliers. -/
theorem churn_cond_iff (rows : List Row) (p : ℤ)
    (hn : 2 ≤ numPeriods rows) :
    ((churnMean rows : ℝ) + 2 * Real.sqrt (churnVar rows : ℝ)
        < (extreme_churn rows p : ℝ)) ↔
    (churnMean rows < (extreme_churn rows p : ℚ) ∧
      4 * churnVar rows
        < ((extreme_churn rows p : ℚ) - churnMean rows) ^ 2) := by
  have hv : (0:ℝ) ≤ ((churnVar rows : ℚ) : ℝ) := by
    exact_mod_cast churnVar_nonneg rows hn
  have hiff := two_sqrt_lt_iff
    (x := (extreme_churn rows p : ℝ) - (churnMean rows : ℝ)) hv
  constructor
  · intro h
    have h2 : 2 * Real.sqrt ((churnVar rows : ℚ) : ℝ)
        < (extreme_churn rows p : ℝ) - (churnMean rows : ℝ) := by
      linarith
    obtain ⟨hx, hsq⟩ := hiff.mp h2
    constructor
    · have : ((churnMean rows : ℚ) : ℝ) < ((extreme_churn rows p : ℕ) : ℝ) := by
        linarith
      exact_mod_cast this
    · have : (4:ℝ) * ((churnVar rows : ℚ) : ℝ)
          < (((extreme_churn rows p : ℕ) : ℝ) - ((churnMean rows : ℚ) : ℝ)) ^ 2 := hsq
      exact_mod_cast this
  · rintro ⟨h1, h2⟩
    have h1R : ((churnMean rows : ℚ) : ℝ) < ((extreme_churn rows p : ℕ) : ℝ) := by
      exact_mod_cast h1
    have h2R : (4:ℝ) * ((churnVar rows : ℚ) : ℝ)
        < (((extreme_churn rows p : ℕ) : ℝ) - ((churnMean rows : ℚ) : ℝ)) ^ 2 := by
      exact_mod_cast h2
    have := hiff.mpr ⟨by linarith, h2R⟩
    linarith

/-- Membership in the outlier set, unfolded to the rational condition. -/
theorem mem_churn_outliers (rows : List Row) (p : ℤ)
    (hn : 2 ≤ numPeriods rows) :
    p ∈ churn_outliers rows ↔
      p ∈ periodsOf rows ∧
        (churnMean rows < (extreme_churn rows p : ℚ) ∧
          4 * churnVar rows
            < ((extreme_churn rows p : ℚ) - churnMean rows) ^ 2) := by
  unfold churn_outliers
  rw [if_neg (by omega)]
  simp [List.mem_filter]

/-- Claim C5: the outlier set holds exactly the periods whose distinct
customer count strictly exceeds mean plus two standard deviations, and in
particular a period whose count is at or below the mean is never flagged. -/
theorem detect_churn_outliers_one_sided (rows : List Row) (p : ℤ)
    (hn : 2 ≤ numPeriods rows) :
    (p ∈ churn_outliers rows ↔
      p ∈ periodsOf rows ∧
        (churnMean rows : ℝ) + 2 * Real.sqrt (churnVar rows : ℝ)
          < (extreme_churn rows p : ℝ)) ∧
    ((extreme_churn rows p : ℚ) ≤ churnMean rows →
      p ∉ churn_outliers rows) := by
  have hmem := mem_churn_outliers rows p hn
  have hcond := churn_cond_iff rows p hn
  constructor
  · rw [hmem]
    constructor
    · rintro ⟨hp, hc⟩; exact ⟨hp, hcond.mpr hc⟩
    · rintro ⟨hp, hc⟩; exact ⟨hp, hcond.mp hc⟩
  · intro hle hin
    obtain ⟨-, hgt, -⟩ := hmem.mp hin
    exact absurd hgt (not_lt.mpr hle)

theorem detect_churn_outliers_one_sided_witness :
    ((6 : ℤ) ∈ churn_outliers churnExampleRows ↔
      (6 : ℤ) ∈ periodsOf churnExampleRows ∧
        (churnMean churnExampleRows : ℝ)
            + 2 * Real.sqrt (churnVar churnExampleRows : ℝ)
          < (extreme_churn churnExampleRows 6 : ℝ)) ∧
    ((extreme_churn churnExampleRows 6 : ℚ) ≤ churnMean churnExampleRows →
      (6 : ℤ) ∉ churn_outliers churnExampleRows) :=
  detect_churn_outliers_one_sided churnExampleRows 6 (by decide)

theorem periods_churnExample :
    periodsOf churnExampleRows = [1, 2, 3, 4, 5, 6] := by decide

theorem numPeriods_churnExample : numPeriods churnExampleRows = 6 := by
  decide

theorem count1_churnExample : extreme_churn churnExampleRows 1 = 1 := by
  decide

theorem count2_churnExample : extreme_churn churnExampleRows 2 = 1 := by
  decide

theorem count3_churnExample : extreme_churn churnExampleRows 3 = 1 := by
  decide

theorem count4_churnExample : extreme_churn churnExampleRows 4 = 1 := by
  decide

theorem count5_churnExample : extreme_churn churnExampleRows 5 = 2 := by
  decide

theorem count6_churnExample : extreme_churn churnExampleRows 6 = 4 := by
  decide

theorem mean_churnExample : churnMean churnExampleRows = 5 / 3 := by
  unfold churnMean
  rw [periods_churnExample, numPeriods_churnExample]
  simp only [List.map_cons, List.map_nil, List.sum_cons, List.sum_nil,
    count1_churnExample, count2_churnExample, count3_churnExample,
    count4_churnExample, count5_churnExample, count6_churnExample]
  norm_num

theorem var_churnExample : churnVar churnExampleRows = 22 / 15 := by
  unfold churnVar
  rw [periods_churnExample, numPeriods_churnExample, mean_churnExample]
  simp only [List.map_cons, List.map_nil, List.sum_cons, List.sum_nil,
    count1_churnExample, count2_churnExample, count3_churnExample,
    count4_churnExample, count5_churnExample, count6_churnExample]
  norm_num

theorem varPop_churnExample : churnVarPop churnExampleRows = 11 / 9 := by
  unfold churnVarPop
  rw [periods_churnExample, numPeriods_churnExample, mean_churnExample]
  simp only [List.map_cons, List.map_nil, List.sum_cons, List.sum_nil,
    count1_churnExample, count2_churnExample, count3_churnExample,
    count4_churnExample, count5_churnExample, count6_churnExample]
  norm_num

/-- Claim C6 (refutation): on the ten-row example the population-statistics
outlier set flags period 6 while the outlier set of the code does not, so
the code's standard deviation is not the population one. -/
theorem churn_std_not_population_counterexample :
    (6 : ℤ) ∈ churn_outliers_pop churnExampleRows ∧
    (6 : ℤ) ∉ churn_outliers churnExampleRows := by
  constructor
  · unfold churn_outliers_pop
    rw [List.mem_filter]
    refine ⟨by rw [periods_churnExample]; decide, ?_⟩
    simp only [decide_eq_true_eq, count6_churnExample, mean_churnExample,
      varPop_churnExample]
    norm_num
  · intro hmem
    have hn : 2 ≤ numPeriods churnExampleRows := by
      rw [numPeriods_churnExample]; omega
    obtain ⟨-, -, hsq⟩ :=
      (mem_churn_outliers churnExampleRows 6 hn).mp hmem
    rw [count6_churnExample, mean_churnExample, var_churnExample] at hsq
    norm_num at hsq

/-- Claim C6 (as amended): the variance underlying the code's threshold is
the sample variance, related to the population variance over the same
counts by the factor n over n minus one. -/
theorem churn_std_sample_divisor (rows : List Row)
    (hn : 2 ≤ numPeriods rows) :
    churnVar rows
      = ((numPeriods rows : ℚ) / ((numPeriods rows : ℚ) - 1))
          * churnVarPop rows := by
  have h2 : (2 : ℚ) ≤ (numPeriods rows : ℚ) := by exact_mod_cast hn
  have hn0 : (numPeriods rows : ℚ) ≠ 0 := by linarith
  have hn1 : (numPeriods rows : ℚ) - 1 ≠ 0 := by
    intro h; rw [sub_eq_zero] at h; rw [h] at h2; norm_num at h2
  unfold churnVar churnVarPop
  field_simp
  ring

theorem churn_std_sample_divisor_witness :
    churnVar churnExampleRows
      = ((numPeriods churnExampleRows : ℚ)
          / ((numPeriods churnExampleRows : ℚ) - 1))
          * churnVarPop churnExampleRows :=
  churn_std_sample_divisor churnExampleRows (by decide)

/-- A list all of whose elements are equal has at most one distinct
element. -/
theorem dedup_length_le_one {α : Type} [DecidableEq α] {l : List α} {a : α}
    (h : ∀ x ∈ l, x = a) : l.dedup.length ≤ 1 := by
  induction l with
  | nil => simp
  | cons b t ih =>
    have hb : b = a := h b (by simp)
    by_cases ht : t = []
    · subst ht; simp
    · have hmem : b ∈ t := by
        obtain ⟨y, hy⟩ := List.exists_mem_of_ne_nil t ht
        rw [hb, ← h y (by simp [hy])]
        exact hy
      rw [List.dedup_cons_of_mem hmem]
      exact ih fun x hx => h x (by simp [hx])

/-- Claim C7: a table whose transactions all fall in one calendar period
produces the empty outlier set (the degenerate NaN standard deviation of a
single sample compares as false everywhere), and the computation is total,
so nothing is raised. -/
theorem single_period_outliers_empty (rows : List Row) (p : ℤ)
    (hne : rows ≠ []) (h : ∀ r ∈ rows, PurchaseMonth r = p) :
    churn_outliers rows = [] := by
  have hlen : numPeriods rows < 2 := by
    have hle : (rows.map PurchaseMonth).dedup.length ≤ 1 := by
      apply dedup_length_le_one (a := p)
      intro x hx
      obtain ⟨r, hr, rfl⟩ := List.mem_map.mp hx
      exact h r hr
    unfold numPeriods periodsOf
    omega
  unfold churn_outliers
  rw [if_pos hlen]

theorem single_period_outliers_empty_witness :
    churn_outliers singlePeriodRows = [] :=
  single_period_outliers_empty singlePeriodRows 7 (by decide) (by decide)

/-- Claim C8: when the uploaded table lacks the Date column or the
Customer_ID column the engine run aborts with an error before producing
any output; the error result carries no partial computation. -/
theorem missing_column_fatal (t : RawTable)
    (h : "Date" ∉ t.cols ∨ "Customer_ID" ∉ t.cols) :
    ∃ msg, runEngine t = .error msg := by
  unfold runEngine
  by_cases hd : "Date" ∈ t.cols
  · have hc : "Customer_ID" ∉ t.cols := by tauto
    have hgd : getColumn t "Date"
        = .ok (t.cells.map fun r => lookupCol r "Date") := by
      unfold getColumn; rw [if_pos hd]
    rw [hgd]
    simp only [Except.bind]
    cases hdt : to_datetime (t.cells.map fun r => lookupCol r "Date") with
    | error e => exact ⟨e, rfl⟩
    | ok dates =>
      have hgc : getColumn t "Customer_ID"
          = .error ("KeyError: " ++ "Customer_ID") := by
        unfold getColumn; rw [if_neg hc]
      simp only [Except.bind, hgc]
      exact ⟨_, rfl⟩
  · have hgd : getColumn t "Date" = .error ("KeyError: " ++ "Date") := by
      unfold getColumn; rw [if_neg hd]
    rw [hgd]
    exact ⟨_, rfl⟩

theorem missing_column_fatal_witness :
    ∃ msg, runEngine noDateTable = .error msg :=
  missing_column_fatal noDateTable (Or.inl (by decide))

end Cohort

namespace DCF

/-- Claim C10 (refutation): the inputs initial free cash flow 100, growth
rate 5 percent, discount rate 2 percent, terminal growth rate 2 percent
and a 5 year forecast are all admissible in the UI, yet the terminal-value
denominator is zero and the valuation aborts on a division by zero
(modelled as none). -/
theorem dcf_terminal_value_div_by_zero :
    ((0:ℚ) ≤ 100 ∧ (0:ℚ) ≤ 5 ∧ (0:ℚ) ≤ 2 ∧ (0:ℚ) ≤ 2 ∧
      1 ≤ 5 ∧ 5 ≤ 20) ∧
    dcf_model 100 5 2 2 5 = none := by
  refine ⟨by norm_num, ?_⟩
  unfold dcf_model dcf_valuation discounted_terminal_value terminal_value
  have hlast : (forecasted_fcf 100 (5 / 100) 5).getLast?
      = some (100 * (1 + 5 / 100) ^ 5) := rfl
  rw [hlast]
  have hzero : (2:ℚ) / 100 - 2 / 100 = 0 := by norm_num
  simp [hzero]

/-- Claim C10 (as amended): for every UI-admissible input whose discount
rate differs from its terminal growth rate, the valuation is a defined
(finite) rational and no division by zero occurs. -/
theorem dcf_valuation_defined_when_rates_differ
    (initial_fcf growth_rate_pct discount_rate_pct
      terminal_growth_rate_pct : ℚ) (forecast_years : ℕ)
    (hfcf : 0 ≤ initial_fcf) (hg : 0 ≤ growth_rate_pct)
    (hd : 0 ≤ discount_rate_pct) (htg : 0 ≤ terminal_growth_rate_pct)
    (hy1 : 1 ≤ forecast_years) (hy2 : forecast_years ≤ 20)
    (hne : discount_rate_pct ≠ terminal_growth_rate_pct) :
    ∃ v, dcf_model initial_fcf growth_rate_pct discount_rate_pct
      terminal_growth_rate_pct forecast_years = some v := by
  unfold dcf_model dcf_valuation discounted_terminal_value terminal_value
  have hlist : forecasted_fcf initial_fcf (growth_rate_pct / 100)
      forecast_years ≠ [] := by
    unfold forecasted_fcf yearsList
    simp only [ne_eq, List.map_eq_nil_iff, List.range_eq_nil]
    omega
  obtain ⟨lf, hlf⟩ := Option.isSome_iff_exists.mp
    (List.getLast?_isSome.mpr hlist)
  rw [hlf]
  have hden : discount_rate_pct / 100 - terminal_growth_rate_pct / 100
      ≠ 0 := by
    intro hzero
    apply hne
    have : (discount_rate_pct - terminal_growth_rate_pct) / 100 = 0 := by
      rw [← hzero]; ring
    have := (div_eq_zero_iff.mp this).resolve_right (by norm_num)
    linarith [sub_eq_zero.mp this]
  simp [hden]

theorem dcf_valuation_defined_when_rates_differ_witness :
    ∃ v, dcf_model 100 5 10 2 5 = some v :=
  dcf_valuation_defined_when_rates_differ 100 5 10 2 5
    (by norm_num) (by norm_num) (by norm_num) (by norm_num)
    (by norm_num) (by norm_num) (by norm_num)

end DCF
